import Mathlib

/-!
Shallow embedding of the mlightning loader core (src/loader.cpp, src/threading.h)
and proofs about its specified behaviour.

The concurrent objects (`tools::WaitQueue`, `tools::RoundRobin`) are modelled as
sequential state machines: each public operation becomes a function on an explicit
state, with blocking modelled as `Option.none` (the operation does not fire and the
state is unchanged) and condition-variable notifications recorded as an explicit
`Wake` result.  The configuration and cluster-setup code of `loader::Loader` is
modelled as pure functions over the inputs those code paths inspect, with
`exit(EXIT_FAILURE)` modelled as an error result.

The file is organised as definitions first (all translated from the source),
then theorems.
-/

namespace MLightning

/-! ## Definitions: bounded wait queue (src/threading.h, class WaitQueue)

State of `tools::WaitQueue<Value>`: the FIFO `_queue` (front of the list is the
front of the queue), `_queueMaxSize`, and the `_endWait` flag. -/

structure WaitQueue (V : Type) where
  queue : List V
  queueMaxSize : Nat
  endWaitFlag : Bool
  deriving Repr, DecidableEq

/-- Condition-variable notification issued by an operation:
no notification, `notify_one`, or `notify_all`. -/
inductive Wake where
  | none : Wake
  | one : Wake
  | all : Wake
  deriving Repr, DecidableEq

namespace WaitQueue

variable {V : Type}

/-- `bool inline full() const { return _queue.size() >= _queueMaxSize; }` -/
def full (s : WaitQueue V) : Bool := s.queue.length ≥ s.queueMaxSize

/-- The fast path of `WaitQueue::push` (threading.h:168-182).  The caller holds the
lock; if the queue is not full the value is emplaced and consumers are notified
according to the size before the insert (`notify_one` on 0, `notify_all` on 1).
If the queue is full the producer blocks: modelled as `none`, no state change. -/
def pushStep (v : V) (s : WaitQueue V) : Option (WaitQueue V × Wake) :=
  if ¬ s.full then
    let queueSize := s.queue.length
    some ({ s with queue := s.queue ++ [v] },
          if queueSize = 0 then Wake.one
          else if queueSize = 1 then Wake.all
          else Wake.none)
  else
    none

/-- The resume path of `WaitQueue::push` (threading.h:180-181): a producer that
blocked on a full queue wakes once `!full()` holds and emplaces the value with no
notification.  The guard `¬ s.full` is the condition-variable predicate. -/
def resumeStep (v : V) (s : WaitQueue V) : Option (WaitQueue V × Wake) :=
  if ¬ s.full then
    some ({ s with queue := s.queue ++ [v] }, Wake.none)
  else
    none

/-- `WaitQueue::pop` (threading.h:191-205).  The consumer waits until the queue is
non-empty or `_endWait` is set (waiting is modelled as `none`).  On an empty queue
with `_endWait` set it returns `ok = false` (modelled as value `Option.none`).
Otherwise it reads the front, notifies producers according to
`tolimit = _queueMaxSize - _queue.size()` computed before the pop
(`notify_one` on 0, `notify_all` on 1), and pops. -/
def popStep (s : WaitQueue V) : Option (Option V × WaitQueue V × Wake) :=
  match s.queue with
  | [] => if s.endWaitFlag then some (Option.none, s, Wake.none) else none
  | v :: rest =>
    let tolimit := s.queueMaxSize - s.queue.length
    some (some v, { s with queue := rest },
          if tolimit = 0 then Wake.one
          else if tolimit = 1 then Wake.all
          else Wake.none)

/-- `WaitQueue::endWait` (threading.h:210): sets `_endWait` and notifies all. -/
def endWaitStep (s : WaitQueue V) : WaitQueue V :=
  { s with endWaitFlag := true }

/-- Outputs and final state of `k` consecutive `pop` calls by a single consumer.
A pop that would block (`popStep = none`) completes no operation and ends the
run. -/
def popN (s : WaitQueue V) : Nat → List (Option V) × WaitQueue V
  | 0 => ([], s)
  | k + 1 =>
    match popStep s with
    | some (r, s', _) => (r :: (popN s' k).1, (popN s' k).2)
    | Option.none => ([], s)

/-- States reachable from a freshly constructed queue of capacity `n`
(`WaitQueue(size_t queueMaxSize)`: empty queue, `_endWait` false) by any
interleaving of the operations.  Producer steps fire only under the lock-held
condition `¬ full` that the source establishes (the `if` on the fast path, the
condition-variable predicate on the resume path). -/
inductive Reachable (V : Type) (n : Nat) : WaitQueue V → Prop where
  | init : Reachable V n ⟨[], n, false⟩
  | push {s s' : WaitQueue V} {v : V} {w : Wake} :
      Reachable V n s → pushStep v s = some (s', w) → Reachable V n s'
  | resume {s s' : WaitQueue V} {v : V} {w : Wake} :
      Reachable V n s → resumeStep v s = some (s', w) → Reachable V n s'
  | pop {s s' : WaitQueue V} {r : Option V} {w : Wake} :
      Reachable V n s → popStep s = some (r, s', w) → Reachable V n s'
  | endW {s : WaitQueue V} :
      Reachable V n s → Reachable V n (endWaitStep s)

end WaitQueue

/-! ## Definitions: round-robin cursor (src/threading.h, class RoundRobin)

State of `tools::RoundRobin<T>`: the container (a `std::deque<T>`, modelled as a
list) and the iterator `_position`, modelled as an index into the container.
`init()` sets `_position = _container.begin()`, i.e. index 0. -/

structure RoundRobin (T : Type) where
  container : List T
  position : Nat
  deriving Repr, DecidableEq

namespace RoundRobin

variable {T : Type}

/-- `RoundRobin::next` (threading.h:254-261): returns false on an empty container;
otherwise pre-increments `_position`, wrapping from `end()` to `begin()`, and
returns the element there.  The returned value is `none` when there is nothing to
return (`return false` with `ret` unchanged). -/
def next (s : RoundRobin T) : Option T × RoundRobin T :=
  if s.container.isEmpty then (Option.none, s)
  else if s.position + 1 = s.container.length then
    (s.container[0]?, { s with position := 0 })
  else
    (s.container[s.position + 1]?, { s with position := s.position + 1 })

/-- `RoundRobin::remove` (threading.h:267-272): erases all instances of the value
(`std::remove` + `erase`, order-preserving) and re-runs `init()`, which resets
`_position` to `begin()`. -/
def removeVal [DecidableEq T] (x : T) (s : RoundRobin T) : RoundRobin T :=
  { container := s.container.filter (fun y => decide (y ≠ x)), position := 0 }

/-- Outputs of `k` consecutive `next()` calls. -/
def run (s : RoundRobin T) : Nat → List (Option T)
  | 0 => []
  | k + 1 => (next s).1 :: run (next s).2 k

end RoundRobin

/-! ## Definitions: loader settings processing (src/loader.cpp, Loader::Settings::process)

The shard-key portion of `Settings::process` (loader.cpp:35-68) iterates the
parsed `shardKeyJson` BSON document.  A BSON element value is modelled as either
a number or a string; `key.valueStringData() == "hashed"` can hold only of a
string value, and `key.Int()` on a value that is neither a number 1 / -1 nor the
string "hashed" throws, aborting the program.  The raw `shardKeyJson` string is
modelled as `Option (List (String × KeyVal))`: `none` for the empty string
(`shardKeyJson.empty()`), `some fields` for a parseable document. -/

inductive KeyVal where
  | num (i : Int)
  | str (s : String)
  deriving Repr, DecidableEq

inductive ConfigError where
  | noShardKey          -- "No shard key for sharded setup"
  | badKeyValue         -- "Unknown value for key ... Values are 1, -1, hashed"
  | keyIntConversion    -- key.Int() throws on a string value other than "hashed"
  | multiFieldHashed    -- "MongoDB currently only supports hashing of a single field"
  | insufficientThreads -- hardware threads minus abs(threads) is less than 1
  deriving Repr, DecidableEq

/-- Accumulator for the shard-key loop: the members of `Loader::Settings`
mutated by loader.cpp:46-60.  `indexPos_id` is `size_t(-1)` until `_id` is seen;
the sentinel is modelled as `none`. -/
structure ShardKeyAcc where
  hashed : Bool
  shardKeyFields : List String
  indexHas_id : Bool
  indexPos_id : Option Nat
  deriving Repr, DecidableEq

/-- `shardKeyFields.push_back(key.fieldName())` (loader.cpp:54). -/
def appendField (acc : ShardKeyAcc) (fieldName : String) : ShardKeyAcc :=
  { acc with shardKeyFields := acc.shardKeyFields ++ [fieldName] }

/-- The `_id` bookkeeping of loader.cpp:55-58: the first field named `_id`
sets `indexHas_id` and `indexPos_id = count`. -/
def idUpdate (acc : ShardKeyAcc) (fieldName : String) (count : Nat) : ShardKeyAcc :=
  if acc.indexHas_id = false ∧ fieldName = "_id" then
    { acc with indexHas_id := true, indexPos_id := some count }
  else acc

/-- The loop of loader.cpp:46-60, one iteration per shard-key field:
`hashed` is set on the string value "hashed"; any other string makes
`key.Int()` throw; a number other than 1 / -1 is a fatal error; on the
non-fatal paths the field name is appended, the `_id` bookkeeping runs and
`count` is incremented (the common tail of the loop body, duplicated here
into the two accepting branches). -/
def shardKeyLoop : List (String × KeyVal) → Nat → ShardKeyAcc →
    Except ConfigError ShardKeyAcc
  | [], _, acc => Except.ok acc
  | (fieldName, KeyVal.str sv) :: rest, count, acc =>
    if sv = "hashed" then
      shardKeyLoop rest (count + 1)
        (idUpdate (appendField { acc with hashed := true } fieldName) fieldName count)
    else Except.error ConfigError.keyIntConversion
  | (fieldName, KeyVal.num i) :: rest, count, acc =>
    if i = 1 ∨ i = -1 then
      shardKeyLoop rest (count + 1)
        (idUpdate (appendField acc fieldName) fieldName count)
    else Except.error ConfigError.badKeyValue

/-- Result of the shard-key portion of `Settings::process`. -/
structure ProcessResult where
  hashed : Bool
  shardKeyFields : List String
  indexHas_id : Bool
  indexPos_id : Option Nat
  add_id : Bool
  deriving Repr, DecidableEq

/-- The member initialisation at the top of `Settings::process`
(loader.cpp:37-39): `indexHas_id = false`, `indexPos_id = size_t(-1)`
(modelled as `none`); `hashed` carries whatever value the member had on entry. -/
def initAcc (hashedInit : Bool) : ShardKeyAcc :=
  { hashed := hashedInit, shardKeyFields := [], indexHas_id := false,
    indexPos_id := Option.none }

/-- The shard-key portion of `Settings::process` (loader.cpp:35-68): when
`sharded`, an empty `shardKeyJson` is fatal, otherwise the key fields are
processed by the loop and `hashed && count > 1` is fatal (`count` ends as the
number of key fields); finally `if (!indexHas_id) add_id = false`.
`hashedInit` is the value of the `hashed` member on entry and `add_id` the
configured value of the `add_id` option. -/
def processShardKey (sharded : Bool) (shardKeyJson : Option (List (String × KeyVal)))
    (hashedInit : Bool) (add_id : Bool) : Except ConfigError ProcessResult :=
  match
    (if sharded then
      match shardKeyJson with
      | Option.none => Except.error ConfigError.noShardKey
      | some fields =>
        match shardKeyLoop fields 0 (initAcc hashedInit) with
        | Except.error e => Except.error e
        | Except.ok acc =>
          if acc.hashed = true ∧ fields.length > 1 then
            Except.error ConfigError.multiFieldHashed
          else Except.ok acc
    else Except.ok (initAcc hashedInit)) with
  | Except.error e => Except.error e
  | Except.ok acc =>
    Except.ok { hashed := acc.hashed, shardKeyFields := acc.shardKeyFields,
                indexHas_id := acc.indexHas_id, indexPos_id := acc.indexPos_id,
                add_id := if acc.indexHas_id then add_id else false }

/-- A shard-key field value the source accepts inside the loop: the number 1,
the number -1, or the string "hashed". -/
def validKeyVal (v : KeyVal) : Prop :=
  v = KeyVal.num 1 ∨ v = KeyVal.num (-1) ∨ v = KeyVal.str "hashed"

/-- The thread-count resolution of `Settings::process` (loader.cpp:97-107):
`threads == 0` becomes twice the hardware concurrency; a negative value becomes
hardware concurrency plus the (negative) value, fatal when the result is below
1; a positive value is kept. -/
def resolveThreads (hardwareConcurrency : Nat) (threads : Int) :
    Except ConfigError Int :=
  if threads = 0 then Except.ok ((hardwareConcurrency : Int) * 2)
  else if threads < 0 then
    if (hardwareConcurrency : Int) + threads < 1 then
      Except.error ConfigError.insufficientThreads
    else Except.ok ((hardwareConcurrency : Int) + threads)
  else Except.ok threads

/-! ## Definitions: cluster setup (src/loader.cpp, Loader::setupLoad, sharded branch) -/

/-- Results of the cluster-facade calls made by the sharded branch of
`Loader::setupLoad` (loader.cpp:179-205): the return value of `enableSharding`,
the `"ok"` integer field of its response document, and the return value of
`shardCollection` (either overload). -/
structure ClusterResponses where
  enableShardingOk : Bool
  enableShardingInfoOk : Int
  shardCollectionOk : Bool
  deriving Repr, DecidableEq

inductive SetupResult where
  | exited      -- exit(EXIT_FAILURE): the pipeline never starts
  | completed   -- setupLoad returns; Loader construction proceeds to the pipeline
  deriving Repr, DecidableEq

/-- The sharded branch of `Loader::setupLoad` (loader.cpp:179-205).  Returns the
outcome together with whether "Sharding db failed" was written to stderr.  When
`enableSharding` returns false the error is printed only when the response's
`"ok"` field is nonzero, `info` is reset, and execution falls through to
`shardCollection`; only a `shardCollection` failure calls `exit`. -/
def setupLoadShardedStep (sharded : Bool) (resp : ClusterResponses) :
    SetupResult × Bool :=
  if sharded then
    let reported : Bool :=
      decide (resp.enableShardingOk = false ∧ resp.enableShardingInfoOk ≠ 0)
    if resp.shardCollectionOk = false then (SetupResult.exited, reported)
    else (SetupResult.completed, reported)
  else (SetupResult.completed, false)

/-! ## Theorems: bounded wait queue -/

namespace WaitQueue

variable {V : Type}

theorem pushStep_char {v : V} {s s' : WaitQueue V} {w : Wake}
    (h : pushStep v s = some (s', w)) :
    s.full = false ∧ s'.queue = s.queue ++ [v] ∧
      s'.queueMaxSize = s.queueMaxSize ∧ s'.endWaitFlag = s.endWaitFlag := by
  unfold pushStep at h
  split at h
  · rename_i hf
    simp only [Option.some.injEq, Prod.mk.injEq] at h
    refine ⟨by simpa using hf, ?_, ?_, ?_⟩ <;> rw [← h.1]
  · exact absurd h (by simp)

theorem resumeStep_char {v : V} {s s' : WaitQueue V} {w : Wake}
    (h : resumeStep v s = some (s', w)) :
    s.full = false ∧ s'.queue = s.queue ++ [v] ∧
      s'.queueMaxSize = s.queueMaxSize ∧ s'.endWaitFlag = s.endWaitFlag := by
  unfold resumeStep at h
  split at h
  · rename_i hf
    simp only [Option.some.injEq, Prod.mk.injEq] at h
    refine ⟨by simpa using hf, ?_, ?_, ?_⟩ <;> rw [← h.1]
  · exact absurd h (by simp)

theorem popStep_char {s s' : WaitQueue V} {r : Option V} {w : Wake}
    (h : popStep s = some (r, s', w)) :
    s'.queue.length ≤ s.queue.length ∧
      s'.queueMaxSize = s.queueMaxSize ∧ s'.endWaitFlag = s.endWaitFlag := by
  unfold popStep at h
  split at h
  · split at h
    · simp only [Option.some.injEq, Prod.mk.injEq] at h
      rw [← h.2.1]
      exact ⟨Nat.le_refl _, rfl, rfl⟩
    · exact absurd h (by simp)
  · rename_i v rest hq
    simp only [Option.some.injEq, Prod.mk.injEq] at h
    rw [← h.2.1]
    simp [hq]

theorem popStep_nil {s : WaitQueue V} (hq : s.queue = []) :
    popStep s = if s.endWaitFlag then some (Option.none, s, Wake.none) else Option.none := by
  unfold popStep
  split
  · rfl
  · rename_i v rest hq'
    rw [hq] at hq'
    simp at hq'

theorem popStep_cons {s : WaitQueue V} {v : V} {rest : List V} (hq : s.queue = v :: rest) :
    popStep s = some (some v, { s with queue := rest },
      if s.queueMaxSize - s.queue.length = 0 then Wake.one
      else if s.queueMaxSize - s.queue.length = 1 then Wake.all
      else Wake.none) := by
  unfold popStep
  split
  · rename_i hq'
    rw [hq] at hq'
    simp at hq'
  · rename_i v' rest' hq'
    rw [hq] at hq'
    injection hq' with h1 h2
    subst h1
    subst h2
    rfl

/-- After `_endWait` is set, a consumer doing `k` consecutive pops receives the
queued values front-first, then `ok = false` on every further pop. -/
theorem popN_endWait {V : Type} (k : Nat) :
    ∀ (s : WaitQueue V), s.endWaitFlag = true →
    (popN s k).1 = (s.queue.take k).map some ++
      List.replicate (k - s.queue.length) (Option.none : Option V) := by
  induction k with
  | zero => intro s _; simp [popN]
  | succ k ih =>
    intro s he
    cases hq : s.queue with
    | nil =>
      rw [popN, popStep_nil hq, if_pos he]
      simp only
      rw [ih s he, hq]
      simp [List.replicate_succ]
    | cons v rest =>
      rw [popN, popStep_cons hq]
      simp only
      rw [ih { s with queue := rest } he]
      simp [hq, Nat.succ_sub_succ, List.take_succ_cons]

theorem reachable_maxSize {V : Type} {n : Nat} {s : WaitQueue V}
    (h : Reachable V n s) : s.queueMaxSize = n := by
  induction h with
  | init => rfl
  | push _ hst ih => rw [(pushStep_char hst).2.2.1]; exact ih
  | resume _ hst ih => rw [(resumeStep_char hst).2.2.1]; exact ih
  | pop _ hst ih => rw [(popStep_char hst).2.1]; exact ih
  | endW _ ih => exact ih

theorem reachable_length_le {V : Type} {n : Nat} {s : WaitQueue V}
    (h : Reachable V n s) : s.queue.length ≤ n := by
  induction h with
  | init => simp
  | push hr hst ih =>
    obtain ⟨hful, hq, hmax, _⟩ := pushStep_char hst
    have hm := reachable_maxSize hr
    rw [hq]
    simp only [List.length_append, List.length_cons, List.length_nil]
    simp only [WaitQueue.full, decide_eq_false_iff_not, not_le] at hful
    omega
  | resume hr hst ih =>
    obtain ⟨hful, hq, hmax, _⟩ := resumeStep_char hst
    have hm := reachable_maxSize hr
    rw [hq]
    simp only [List.length_append, List.length_cons, List.length_nil]
    simp only [WaitQueue.full, decide_eq_false_iff_not, not_le] at hful
    omega
  | pop hr hst ih =>
    have hlen := (popStep_char hst).1
    omega
  | endW _ ih => exact ih

end WaitQueue

/-! ## Theorems: round-robin cursor -/

namespace RoundRobin

variable {T : Type}

theorem next_valid (s : RoundRobin T) (h : s.position < s.container.length) :
    next s = (s.container[(s.position + 1) % s.container.length]?,
      { s with position := (s.position + 1) % s.container.length }) := by
  have hne : s.container.isEmpty = false := by
    cases hc : s.container
    · rw [hc] at h; simp at h
    · simp [hc]
  unfold next
  rw [if_neg (by simp [hne])]
  by_cases hw : s.position + 1 = s.container.length
  · rw [if_pos hw, hw, Nat.mod_self]
  · rw [if_neg hw, Nat.mod_eq_of_lt (by omega)]

theorem run_formula {T : Type} (k : Nat) :
    ∀ (s : RoundRobin T), s.position < s.container.length →
    run s k = (List.range k).map
      (fun i => s.container[(s.position + 1 + i) % s.container.length]?) := by
  induction k with
  | zero => intro s _; simp [run]
  | succ k ih =>
    intro s h
    have hn : 0 < s.container.length := by omega
    rw [run, next_valid s h]
    have hvalid : (s.position + 1) % s.container.length < s.container.length :=
      Nat.mod_lt _ hn
    rw [ih _ hvalid]
    rw [List.range_succ_eq_map, List.map_cons, List.map_map]
    refine congrArg₂ List.cons ?_ ?_
    · simp
    · refine List.map_congr_left ?_
      intro i _
      simp only [Function.comp_apply]
      have h1 : (s.position + 1) % s.container.length + 1 + i =
          (s.position + 1) % s.container.length + (1 + i) := by omega
      rw [h1, Nat.mod_add_mod]
      have h2 : s.position + 1 + (1 + i) = s.position + 1 + (i + 1) := by omega
      rw [h2]

/-- Every value yielded by `next` (iterated any number of times) is a member of
the container, and `next` never changes the container. -/
theorem run_mem {T : Type} (k : Nat) :
    ∀ (s : RoundRobin T) (y : T), some y ∈ run s k → y ∈ s.container := by
  induction k with
  | zero => intro s y hy; simp [run] at hy
  | succ k ih =>
    intro s y hy
    have hcont : (next s).2.container = s.container := by
      unfold next
      split
      · rfl
      · split <;> rfl
    have hval : ∀ z : T, (next s).1 = some z → z ∈ s.container := by
      intro z hz
      unfold next at hz
      split at hz
      · simp at hz
      · split at hz <;> exact List.getElem?_mem hz
    rw [run] at hy
    rcases List.mem_cons.1 hy with h1 | h2
    · exact hval y h1.symm
    · rw [← hcont]
      exact ih _ y h2

end RoundRobin

/-! ## Theorems: counting residues in a range (support for round-robin fairness) -/

theorem mod_two_blocks {n a : Nat} (hn : 0 < n) (ha : a < 2 * n) :
    a % n = if a < n then a else a - n := by
  split
  · exact Nat.mod_eq_of_lt (by assumption)
  · rename_i h
    rw [Nat.mod_eq_sub_mod (by omega), Nat.mod_eq_of_lt (by omega)]

theorem mod_eq_iff_dvd_shift {n r : Nat} (hr : r < n) (k : Nat) :
    k % n = r ↔ n ∣ (k + (n - r)) := by
  have hn : 0 < n := by omega
  have hs : k % n < n := Nat.mod_lt k hn
  rw [Nat.dvd_iff_mod_eq_zero]
  rw [← Nat.mod_add_mod]
  rw [mod_two_blocks hn (show k % n + (n - r) < 2 * n by omega)]
  split_ifs <;> omega

theorem countP_mod_range {n r : Nat} (hr : r < n) :
    ∀ k, (List.range k).countP (fun i => decide (i % n = r)) = (k + (n - 1 - r)) / n := by
  intro k
  induction k with
  | zero => simpa using (Nat.div_eq_of_lt (show n - 1 - r < n by omega)).symm
  | succ k ih =>
    rw [List.range_succ, List.countP_append, ih]
    have hstep : (k + 1 + (n - 1 - r)) / n =
        (k + (n - 1 - r)) / n + if n ∣ (k + (n - r)) then 1 else 0 := by
      have h1 : k + 1 + (n - 1 - r) = (k + (n - 1 - r)) + 1 := by omega
      have h2 : k + (n - 1 - r) + 1 = k + (n - r) := by omega
      rw [h1, Nat.succ_div, h2]
    rw [hstep]
    have hiff := mod_eq_iff_dvd_shift hr k
    by_cases hk : k % n = r
    · rw [if_pos (hiff.1 hk)]
      simp [List.countP_cons, hk]
    · rw [if_neg (fun hd => hk (hiff.2 hd))]
      simp [List.countP_cons, hk]

theorem shift_mod_iff {n : Nat} (hn : 0 < n) {j : Nat} (hj : j < n) (c i : Nat) :
    ((c + i) % n = j) ↔ (i % n = (j + (n - c % n)) % n) := by
  have hm : c % n < n := Nat.mod_lt c hn
  have hs : i % n < n := Nat.mod_lt i hn
  have l1 : (c + i) % n = (c % n + i % n) % n := Nat.add_mod c i n
  have e1 := mod_two_blocks hn (show c % n + i % n < 2 * n by omega)
  have e2 := mod_two_blocks hn (show j + (n - c % n) < 2 * n by omega)
  rw [l1, e1, e2]
  split_ifs <;> omega

theorem countP_shifted {n : Nat} (hn : 0 < n) {j : Nat} (hj : j < n) (c k : Nat) :
    (List.range k).countP (fun i => decide ((c + i) % n = j)) =
      (k + (n - 1 - (j + (n - c % n)) % n)) / n := by
  have hr : (j + (n - c % n)) % n < n := Nat.mod_lt _ hn
  rw [← countP_mod_range hr k]
  refine List.countP_congr ?_
  intro i _
  simp only [decide_eq_true_eq]
  exact shift_mod_iff hn hj c i

theorem countP_mod_cases {n : Nat} (hn : 0 < n) {j : Nat} (hj : j < n) (c k : Nat) :
    (List.range k).countP (fun i => decide ((c + i) % n = j)) = k / n ∨
    (List.range k).countP (fun i => decide ((c + i) % n = j)) = (k + (n - 1)) / n := by
  rw [countP_shifted hn hj c k]
  have hrlt : (j + (n - c % n)) % n < n := Nat.mod_lt _ hn
  have h1 : k / n ≤ (k + (n - 1 - (j + (n - c % n)) % n)) / n :=
    Nat.div_le_div_right (by omega)
  have h2 : (k + (n - 1 - (j + (n - c % n)) % n)) / n ≤ (k + (n - 1)) / n :=
    Nat.div_le_div_right (by omega)
  have h3 : (k + (n - 1)) / n ≤ k / n + 1 := by
    have h4 : (k + (n - 1)) / n ≤ (k + n) / n := Nat.div_le_div_right (by omega)
    rw [Nat.add_div_right k hn] at h4
    exact h4
  omega


/-! ## Theorems: shard-key loop bookkeeping -/

theorem appendField_hashed (acc : ShardKeyAcc) (f : String) :
    (appendField acc f).hashed = acc.hashed := rfl

theorem appendField_indexHas_id (acc : ShardKeyAcc) (f : String) :
    (appendField acc f).indexHas_id = acc.indexHas_id := rfl

theorem idUpdate_hashed (acc : ShardKeyAcc) (f : String) (count : Nat) :
    (idUpdate acc f count).hashed = acc.hashed := by
  unfold idUpdate
  split <;> rfl

theorem idUpdate_indexHas_id (acc : ShardKeyAcc) (f : String) (count : Nat) :
    (idUpdate acc f count).indexHas_id = (acc.indexHas_id || decide (f = "_id")) := by
  unfold idUpdate
  split
  · rename_i hcond
    simp [hcond.1, hcond.2]
  · rename_i hcond
    rcases Bool.eq_false_or_eq_true acc.indexHas_id with hb | hb
    · simp [hb]
    · have hne : ¬ f = "_id" := fun he => hcond ⟨hb, he⟩
      simp [hb, hne]

theorem shardKeyLoop_valid_of_ok :
    ∀ (fields : List (String × KeyVal)) (count : Nat) (acc acc' : ShardKeyAcc),
    shardKeyLoop fields count acc = Except.ok acc' →
    ∀ f ∈ fields, validKeyVal f.2 := by
  intro fields
  induction fields with
  | nil => intro _ _ _ _ f hf; simp at hf
  | cons fv rest ih =>
    intro count acc acc' h f hf
    obtain ⟨fieldName, value⟩ := fv
    cases value with
    | num i =>
      simp only [shardKeyLoop] at h
      by_cases hi : i = 1 ∨ i = -1
      · rw [if_pos hi] at h
        rcases List.mem_cons.1 hf with hf1 | hf2
        · subst hf1
          simp only [validKeyVal]
          rcases hi with h1 | h1 <;> simp [h1]
        · exact ih _ _ _ h f hf2
      · rw [if_neg hi] at h
        simp at h
    | str sv =>
      simp only [shardKeyLoop] at h
      by_cases hs : sv = "hashed"
      · rw [if_pos hs] at h
        rcases List.mem_cons.1 hf with hf1 | hf2
        · subst hf1
          simp [validKeyVal, hs]
        · exact ih _ _ _ h f hf2
      · rw [if_neg hs] at h
        simp at h

theorem shardKeyLoop_ok_of_valid :
    ∀ (fields : List (String × KeyVal)), (∀ f ∈ fields, validKeyVal f.2) →
    ∀ (count : Nat) (acc : ShardKeyAcc),
    ∃ acc', shardKeyLoop fields count acc = Except.ok acc' := by
  intro fields
  induction fields with
  | nil => intro _ count acc; exact ⟨acc, rfl⟩
  | cons fv rest ih =>
    intro hv count acc
    obtain ⟨fieldName, value⟩ := fv
    have hval : validKeyVal value := hv _ (List.mem_cons_self _ _)
    have hrest : ∀ f ∈ rest, validKeyVal f.2 :=
      fun f hf => hv f (List.mem_cons_of_mem _ hf)
    rcases hval with h1 | h1 | h1 <;> subst h1
    · simpa [shardKeyLoop] using
        ih hrest (count + 1) (idUpdate (appendField acc fieldName) fieldName count)
    · simpa [shardKeyLoop] using
        ih hrest (count + 1) (idUpdate (appendField acc fieldName) fieldName count)
    · simpa [shardKeyLoop] using
        ih hrest (count + 1)
          (idUpdate (appendField { acc with hashed := true } fieldName) fieldName count)

theorem shardKeyLoop_hashed :
    ∀ (fields : List (String × KeyVal)) (count : Nat) (acc acc' : ShardKeyAcc),
    shardKeyLoop fields count acc = Except.ok acc' →
    acc'.hashed = (acc.hashed ||
      fields.any (fun f => decide (f.2 = KeyVal.str "hashed"))) := by
  intro fields
  induction fields with
  | nil =>
    intro count acc acc' h
    simp only [shardKeyLoop, Except.ok.injEq] at h
    rw [← h]
    simp
  | cons fv rest ih =>
    intro count acc acc' h
    obtain ⟨fieldName, value⟩ := fv
    cases value with
    | num i =>
      simp only [shardKeyLoop] at h
      by_cases hi : i = 1 ∨ i = -1
      · rw [if_pos hi] at h
        rw [ih _ _ _ h, idUpdate_hashed, appendField_hashed]
        simp
      · rw [if_neg hi] at h
        simp at h
    | str sv =>
      simp only [shardKeyLoop] at h
      by_cases hs : sv = "hashed"
      · rw [if_pos hs] at h
        rw [ih _ _ _ h, idUpdate_hashed, appendField_hashed]
        subst hs
        simp
      · rw [if_neg hs] at h
        simp at h

theorem shardKeyLoop_indexHas_id :
    ∀ (fields : List (String × KeyVal)) (count : Nat) (acc acc' : ShardKeyAcc),
    shardKeyLoop fields count acc = Except.ok acc' →
    acc'.indexHas_id = (acc.indexHas_id ||
      fields.any (fun f => decide (f.1 = "_id"))) := by
  intro fields
  induction fields with
  | nil =>
    intro count acc acc' h
    simp only [shardKeyLoop, Except.ok.injEq] at h
    rw [← h]
    simp
  | cons fv rest ih =>
    intro count acc acc' h
    obtain ⟨fieldName, value⟩ := fv
    cases value with
    | num i =>
      simp only [shardKeyLoop] at h
      by_cases hi : i = 1 ∨ i = -1
      · rw [if_pos hi] at h
        rw [ih _ _ _ h, idUpdate_indexHas_id, appendField_indexHas_id]
        simp [Bool.or_assoc]
      · rw [if_neg hi] at h
        simp at h
    | str sv =>
      simp only [shardKeyLoop] at h
      by_cases hs : sv = "hashed"
      · rw [if_pos hs] at h
        rw [ih _ _ _ h, idUpdate_indexHas_id, appendField_indexHas_id]
        simp [Bool.or_assoc]
      · rw [if_neg hs] at h
        simp at h

theorem processShardKey_sharded_err (fields : List (String × KeyVal))
    (hashedInit add_id : Bool) (e : ConfigError)
    (hloop : shardKeyLoop fields 0 (initAcc hashedInit) = Except.error e) :
    processShardKey true (some fields) hashedInit add_id = Except.error e := by
  simp [processShardKey, hloop]

theorem processShardKey_sharded_ok (fields : List (String × KeyVal))
    (hashedInit add_id : Bool) (acc : ShardKeyAcc)
    (hloop : shardKeyLoop fields 0 (initAcc hashedInit) = Except.ok acc) :
    processShardKey true (some fields) hashedInit add_id =
      (if acc.hashed = true ∧ fields.length > 1 then
        Except.error ConfigError.multiFieldHashed
      else
        Except.ok { hashed := acc.hashed, shardKeyFields := acc.shardKeyFields,
                    indexHas_id := acc.indexHas_id, indexPos_id := acc.indexPos_id,
                    add_id := if acc.indexHas_id then add_id else false }) := by
  simp only [processShardKey, hloop, if_true]
  by_cases hcond : acc.hashed = true ∧ fields.length > 1
  · rw [if_pos hcond, if_pos hcond]
  · rw [if_neg hcond, if_neg hcond]

/-! ## Claim theorems -/

/-- C1 (counterexample): the claim says a failed `enableSharding` is reported
and aborts the load before the pipeline starts.  In the source
(loader.cpp:179-196), with `enableSharding` returning failure: if the response
carries `ok = 0` the setup completes silently, and even with `ok = 1` it is
reported but still completes — the program never exits on this failure. -/
theorem C1_enable_sharding_counterexample :
    setupLoadShardedStep true ⟨false, 0, true⟩ = (SetupResult.completed, false) ∧
    setupLoadShardedStep true ⟨false, 1, true⟩ = (SetupResult.completed, true) :=
  ⟨rfl, rfl⟩

/-- C1 (amended): an `enableSharding` failure is never fatal: the error is
written to stderr exactly when the response's `ok` field is nonzero, and setup
continues; the sharded setup exits only when `shardCollection` fails. -/
theorem C1_enable_sharding_not_fatal (resp : ClusterResponses)
    (h : resp.enableShardingOk = false) :
    ((setupLoadShardedStep true resp).1 = SetupResult.exited ↔
      resp.shardCollectionOk = false) ∧
    ((setupLoadShardedStep true resp).2 = true ↔ resp.enableShardingInfoOk ≠ 0) := by
  unfold setupLoadShardedStep
  by_cases hc : resp.shardCollectionOk = false
  · simp [hc, h]
  · simp [hc, h]

theorem C1_enable_sharding_not_fatal_witness :
    (⟨false, 1, false⟩ : ClusterResponses).enableShardingOk = false ∧
    ((setupLoadShardedStep true ⟨false, 1, false⟩).1 = SetupResult.exited ↔
      (⟨false, 1, false⟩ : ClusterResponses).shardCollectionOk = false) :=
  ⟨rfl, (C1_enable_sharding_not_fatal ⟨false, 1, false⟩ rfl).1⟩

/-- C2: pop blocks (does not complete) while the queue is empty and `_endWait`
is unset; with `_endWait` set and the queue empty, pop returns `ok = false`;
after `endWait()`, `k` consecutive pops return the remaining queued values in
FIFO order until the queue is drained and `ok = false` thereafter; `endWait()`
is idempotent. -/
theorem C2_pop_endWait_semantics {V : Type} (s : WaitQueue V) (k : Nat) :
    (s.queue = [] → s.endWaitFlag = false → WaitQueue.popStep s = Option.none) ∧
    (s.queue = [] → s.endWaitFlag = true →
      WaitQueue.popStep s = some (Option.none, s, Wake.none)) ∧
    ((WaitQueue.popN (WaitQueue.endWaitStep s) k).1 =
      (s.queue.take k).map some ++
        List.replicate (k - s.queue.length) (Option.none : Option V)) ∧
    WaitQueue.endWaitStep (WaitQueue.endWaitStep s) = WaitQueue.endWaitStep s := by
  refine ⟨?_, ?_, ?_, rfl⟩
  · intro hq he
    rw [WaitQueue.popStep_nil hq, he]
    simp
  · intro hq he
    rw [WaitQueue.popStep_nil hq, he]
    simp
  · exact WaitQueue.popN_endWait k _ rfl

theorem C2_pop_endWait_semantics_witness :
    WaitQueue.popStep (⟨[], 3, false⟩ : WaitQueue Nat) = Option.none ∧
    WaitQueue.popStep (⟨[], 3, true⟩ : WaitQueue Nat) =
      some (Option.none, ⟨[], 3, true⟩, Wake.none) ∧
    (WaitQueue.popN (WaitQueue.endWaitStep (⟨[7, 8], 3, false⟩ : WaitQueue Nat)) 3).1 =
      [some 7, some 8, Option.none] := by
  refine ⟨(C2_pop_endWait_semantics (⟨[], 3, false⟩ : WaitQueue Nat) 0).1 rfl rfl,
          (C2_pop_endWait_semantics (⟨[], 3, true⟩ : WaitQueue Nat) 0).2.1 rfl rfl, ?_⟩
  exact ((C2_pop_endWait_semantics (⟨[7, 8], 3, false⟩ : WaitQueue Nat) 3).2.2.1).trans rfl

/-- C3: in every state reachable from a freshly constructed queue of capacity
`n` by any interleaving of pushes (fast path and blocked-resume path), pops and
`endWait`, the number of queued elements never exceeds `n`, and a push arriving
when the size equals `n` blocks without inserting. -/
theorem C3_bounded_queue_invariant {V : Type} (n : Nat) (s : WaitQueue V)
    (h : WaitQueue.Reachable V n s) :
    s.queue.length ≤ n ∧
    (s.queue.length = n → ∀ v : V, WaitQueue.pushStep v s = Option.none) := by
  refine ⟨WaitQueue.reachable_length_le h, ?_⟩
  intro hlen v
  have hmax := WaitQueue.reachable_maxSize h
  have hful : s.full = true := by
    simp only [WaitQueue.full, ge_iff_le, decide_eq_true_eq]
    omega
  simp [WaitQueue.pushStep, hful]

theorem C3_bounded_queue_invariant_witness :
    (⟨[5], 2, false⟩ : WaitQueue Nat).queue.length ≤ 2 ∧
    ((⟨[5], 2, false⟩ : WaitQueue Nat).queue.length = 2 →
      ∀ v : Nat, WaitQueue.pushStep v ⟨[5], 2, false⟩ = Option.none) :=
  C3_bounded_queue_invariant 2 ⟨[5], 2, false⟩
    (WaitQueue.Reachable.push WaitQueue.Reachable.init
      (show WaitQueue.pushStep 5 ⟨[], 2, false⟩ = some (⟨[5], 2, false⟩, Wake.one) from rfl))

/-- C4 (counterexample): with `_endWait` already set, a push on a non-full
queue still inserts the value (`push` never reads `_endWait`,
threading.h:168-182): the late producer is not rejected, contradicting the
claim. -/
theorem C4_push_after_endWait_counterexample :
    WaitQueue.pushStep (5 : Nat) ⟨[], 2, true⟩ = some (⟨[5], 2, true⟩, Wake.one) :=
  rfl

/-- C4 (amended): `push` ignores `_endWait` entirely: a push after `endWait()`
behaves exactly as the same push before it — the value is inserted whenever the
queue is not full, so late producers are silently accepted, never rejected. -/
theorem C4_push_ignores_endWait {V : Type} (s : WaitQueue V) (v : V) :
    WaitQueue.pushStep v (WaitQueue.endWaitStep s) =
      (WaitQueue.pushStep v s).map (fun p => (WaitQueue.endWaitStep p.1, p.2)) := by
  unfold WaitQueue.pushStep WaitQueue.endWaitStep WaitQueue.full
  by_cases hf : s.queue.length ≥ s.queueMaxSize
  · simp [hf]
  · simp [hf]

/-- C5 (counterexample): the wake policy is not "exactly" as claimed.  A
producer that blocked on a full capacity-1 queue (push a; push b blocks; pop a
wakes it) resumes and emplaces with no notification (threading.h:180-181), so a
push taking the size from 0 to 1 can issue no wake where the claim requires a
single-consumer wake. -/
theorem C5_wake_policy_counterexample :
    WaitQueue.resumeStep (7 : Nat) ⟨[], 1, false⟩ =
      some (⟨[7], 1, false⟩, Wake.none) ∧ Wake.none ≠ Wake.one :=
  ⟨rfl, by decide⟩

/-- C5 (amended): the claimed wake policy holds for a push that finds the queue
not full on entry (0→1 wakes one, 1→2 wakes all, otherwise none) and for pops
(at size N wake one, at N-1 wake all, otherwise none; a failed pop wakes
nobody); a push that blocked inserts on resume without issuing any wake. -/
theorem C5_wake_policy_amended {V : Type} (s : WaitQueue V) (v : V)
    (hinv : s.queue.length ≤ s.queueMaxSize) :
    (∀ s' w, WaitQueue.pushStep v s = some (s', w) →
      ((s.queue.length = 0 → w = Wake.one) ∧
       (s.queue.length = 1 → w = Wake.all) ∧
       (2 ≤ s.queue.length → w = Wake.none))) ∧
    (∀ s' w, WaitQueue.resumeStep v s = some (s', w) → w = Wake.none) ∧
    (∀ x s' w, WaitQueue.popStep s = some (some x, s', w) →
      ((s.queue.length = s.queueMaxSize → w = Wake.one) ∧
       (s.queue.length + 1 = s.queueMaxSize → w = Wake.all) ∧
       (s.queue.length + 2 ≤ s.queueMaxSize → w = Wake.none))) ∧
    (∀ s' w, WaitQueue.popStep s = some (Option.none, s', w) → w = Wake.none) := by
  refine ⟨?_, ?_, ?_, ?_⟩
  · intro s' w h
    unfold WaitQueue.pushStep at h
    split at h
    · simp only [Option.some.injEq, Prod.mk.injEq] at h
      refine ⟨?_, ?_, ?_⟩ <;> intro hlen <;> rw [← h.2]
      · rw [if_pos hlen]
      · rw [if_neg (by omega), if_pos hlen]
      · rw [if_neg (by omega), if_neg (by omega)]
    · simp at h
  · intro s' w h
    unfold WaitQueue.resumeStep at h
    split at h
    · simp only [Option.some.injEq, Prod.mk.injEq] at h
      exact h.2.symm
    · simp at h
  · intro x s' w h
    cases hq : s.queue with
    | nil =>
      rw [WaitQueue.popStep_nil hq] at h
      split at h <;> simp at h
    | cons a rest =>
      rw [WaitQueue.popStep_cons hq] at h
      simp only [Option.some.injEq, Prod.mk.injEq] at h
      have hlq : s.queue.length = rest.length + 1 := by rw [hq]; rfl
      have hlq2 : (a :: rest).length = rest.length + 1 := rfl
      refine ⟨?_, ?_, ?_⟩ <;> intro hlen <;> rw [← h.2.2]
      · rw [if_pos (by omega)]
      · rw [if_neg (by omega), if_pos (by omega)]
      · rw [if_neg (by omega), if_neg (by omega)]
  · intro s' w h
    cases hq : s.queue with
    | nil =>
      rw [WaitQueue.popStep_nil hq] at h
      split at h
      · simp only [Option.some.injEq, Prod.mk.injEq] at h
        exact h.2.2.symm
      · simp at h
    | cons a rest =>
      rw [WaitQueue.popStep_cons hq] at h
      simp at h

theorem C5_wake_policy_amended_witness :
    (⟨[9], 2, false⟩ : WaitQueue Nat).queue.length ≤
      (⟨[9], 2, false⟩ : WaitQueue Nat).queueMaxSize ∧
    Wake.none = Wake.none := by
  refine ⟨by decide, ?_⟩
  exact (C5_wake_policy_amended (⟨[9], 2, false⟩ : WaitQueue Nat) 3 (by decide)).2.1
    ⟨[9, 3], 2, false⟩ Wake.none rfl

/-- C6 (counterexample): the key `{a: hashed, b: 1}` declares exactly one
hashed field and the other field has direction 1, so the claim demands
acceptance, yet `Settings::process` exits with "MongoDB currently only supports
hashing of a single field" (loader.cpp:61-65): the check `hashed && count > 1`
counts all fields, not hashed ones. -/
theorem C6_hashed_key_counterexample :
    processShardKey true (some [("a", KeyVal.str "hashed"), ("b", KeyVal.num 1)])
        false false = Except.error ConfigError.multiFieldHashed ∧
    ([("a", KeyVal.str "hashed"), ("b", KeyVal.num 1)] : List (String × KeyVal)).countP
        (fun f => decide (f.2 = KeyVal.str "hashed")) = 1 ∧
    validKeyVal (KeyVal.num 1) :=
  ⟨rfl, rfl, Or.inl rfl⟩

/-- C6 (amended): a sharded key specification is accepted iff every field value
is 1, -1 or "hashed" AND, whenever some field is hashed, the key consists of
exactly that one field; any hashed key with more than one field (even with a
single hashed field) is a fatal configuration error. -/
theorem C6_hashed_key_acceptance (fields : List (String × KeyVal)) (add_id : Bool) :
    (∃ r, processShardKey true (some fields) false add_id = Except.ok r) ↔
      ((∀ f ∈ fields, validKeyVal f.2) ∧
       ((∃ f ∈ fields, f.2 = KeyVal.str "hashed") → fields.length = 1)) := by
  cases hloop : shardKeyLoop fields 0 (initAcc false) with
  | error e =>
    rw [processShardKey_sharded_err fields false add_id e hloop]
    constructor
    · rintro ⟨r, hr⟩
      simp at hr
    · rintro ⟨hvalid, _⟩
      obtain ⟨acc, hok⟩ := shardKeyLoop_ok_of_valid fields hvalid 0 (initAcc false)
      rw [hloop] at hok
      simp at hok
  | ok acc =>
    rw [processShardKey_sharded_ok fields false add_id acc hloop]
    have hhash : acc.hashed =
        fields.any (fun f => decide (f.2 = KeyVal.str "hashed")) := by
      rw [shardKeyLoop_hashed fields 0 _ acc hloop]
      simp [initAcc]
    constructor
    · rintro ⟨r, hr⟩
      by_cases hcond : acc.hashed = true ∧ fields.length > 1
      · rw [if_pos hcond] at hr
        simp at hr
      · refine ⟨shardKeyLoop_valid_of_ok fields 0 _ acc hloop, ?_⟩
        rintro ⟨f, hf, hfh⟩
        have hany : fields.any (fun f => decide (f.2 = KeyVal.str "hashed")) = true :=
          List.any_eq_true.2 ⟨f, hf, by simp [hfh]⟩
        have h1 : 0 < fields.length :=
          List.length_pos.2 (by rintro rfl; simp at hf)
        have h2 : ¬ fields.length > 1 := fun hl => hcond ⟨by rw [hhash, hany], hl⟩
        omega
    · rintro ⟨hvalid, hlen⟩
      have hcond : ¬ (acc.hashed = true ∧ fields.length > 1) := by
        rintro ⟨h1, h2⟩
        rw [hhash] at h1
        obtain ⟨f, hf, hfh⟩ := List.any_eq_true.1 h1
        have h3 := hlen ⟨f, hf, by simpa using hfh⟩
        omega
      rw [if_neg hcond]
      exact ⟨_, rfl⟩

theorem C6_hashed_key_acceptance_witness :
    ∃ r, processShardKey true (some [("u", KeyVal.str "hashed")]) false true =
      Except.ok r := by
  refine (C6_hashed_key_acceptance [("u", KeyVal.str "hashed")] true).2 ⟨?_, ?_⟩
  · intro f hf
    simp only [List.mem_singleton] at hf
    rw [hf]
    exact Or.inr (Or.inr rfl)
  · intro _
    rfl

/-- C7: from any valid cursor state over a duplicate-free container of `n ≥ 1`
elements, across `k` consecutive `next()` calls every element is returned
either `⌊k/n⌋` or `⌈k/n⌉` (= `(k+n-1)/n`) times. -/
theorem C7_roundRobin_fairness {T : Type} [DecidableEq T] (s : RoundRobin T)
    (hpos : s.position < s.container.length) (hnodup : s.container.Nodup)
    (x : T) (hx : x ∈ s.container) (k : Nat) :
    (RoundRobin.run s k).count (some x) = k / s.container.length ∨
    (RoundRobin.run s k).count (some x) =
      (k + (s.container.length - 1)) / s.container.length := by
  have hn : 0 < s.container.length := by omega
  obtain ⟨j, hj, hjx⟩ := List.mem_iff_getElem.1 hx
  rw [RoundRobin.run_formula k s hpos, List.count_eq_countP, List.countP_map]
  have hiff : ∀ i ∈ List.range k,
      (((fun o => o == some x) ∘
          fun i => s.container[(s.position + 1 + i) % s.container.length]?) i = true ↔
       (fun i => decide ((s.position + 1 + i) % s.container.length = j)) i = true) := by
    intro i _
    simp only [Function.comp_apply, beq_iff_eq, decide_eq_true_eq]
    have hm : (s.position + 1 + i) % s.container.length < s.container.length :=
      Nat.mod_lt _ hn
    rw [List.getElem?_eq_getElem hm, Option.some.injEq, ← hjx]
    exact hnodup.getElem_inj_iff
  rw [List.countP_congr hiff]
  exact countP_mod_cases hn hj (s.position + 1) k

theorem C7_roundRobin_fairness_witness :
    (RoundRobin.run (⟨[1, 2, 3], 0⟩ : RoundRobin Nat) 4).count (some 2) = 4 / 3 ∨
    (RoundRobin.run (⟨[1, 2, 3], 0⟩ : RoundRobin Nat) 4).count (some 2) =
      (4 + (3 - 1)) / 3 :=
  C7_roundRobin_fairness (⟨[1, 2, 3], 0⟩ : RoundRobin Nat) (by decide) (by decide)
    2 (by decide) 4

/-- C8: after `remove(x)` every subsequent sequence of `next()` calls never
yields `x`: all instances of `x` are erased from the container and `next` only
returns (and never re-adds) container elements. -/
theorem C8_remove_never_yields {T : Type} [DecidableEq T]
    (s : RoundRobin T) (x : T) (k : Nat) :
    some x ∉ RoundRobin.run (RoundRobin.removeVal x s) k := by
  intro hmem
  have hx := RoundRobin.run_mem k _ x hmem
  simp [RoundRobin.removeVal, List.mem_filter] at hx

/-- C9: `Settings::process` resolves the batcher thread count exactly as
claimed: 0 becomes twice the hardware concurrency, a negative value becomes
hardware concurrency minus its absolute value with a result below 1 fatal, and
a positive value is kept unchanged. -/
theorem C9_thread_count_resolution (hw : Nat) (t : Int) :
    (t = 0 → resolveThreads hw t = Except.ok ((hw : Int) * 2)) ∧
    (t < 0 → (hw : Int) + t < 1 →
      resolveThreads hw t = Except.error ConfigError.insufficientThreads) ∧
    (t < 0 → 1 ≤ (hw : Int) + t →
      resolveThreads hw t = Except.ok ((hw : Int) - |t|)) ∧
    (0 < t → resolveThreads hw t = Except.ok t) := by
  unfold resolveThreads
  refine ⟨?_, ?_, ?_, ?_⟩
  · intro h
    rw [if_pos h]
  · intro h1 h2
    rw [if_neg (by omega), if_pos h1, if_pos h2]
  · intro h1 h2
    rw [if_neg (by omega), if_pos h1, if_neg (by omega)]
    have habs : |t| = -t := abs_of_neg h1
    rw [habs]
    ring_nf
  · intro h
    rw [if_neg (by omega), if_neg (by omega)]

theorem C9_thread_count_resolution_witness :
    resolveThreads 4 0 = Except.ok (((4 : Nat) : Int) * 2) ∧
    resolveThreads 4 (-8) = Except.error ConfigError.insufficientThreads ∧
    resolveThreads 4 (-2) = Except.ok (((4 : Nat) : Int) - |(-2 : Int)|) ∧
    resolveThreads 4 5 = Except.ok 5 :=
  ⟨(C9_thread_count_resolution 4 0).1 rfl,
   (C9_thread_count_resolution 4 (-8)).2.1 (by decide) (by decide),
   (C9_thread_count_resolution 4 (-2)).2.2.1 (by decide) (by decide),
   (C9_thread_count_resolution 4 5).2.2.2 (by decide)⟩

/-- C10: on every successful run of the shard-key portion of
`Settings::process`, `add_id` can remain true only when the configured key
contains the field `_id`; when the key lacks `_id`, `add_id` is forced to
false (loader.cpp:68). -/
theorem C10_add_id_requires_id_field (fields : List (String × KeyVal))
    (hashedInit add_id : Bool) (r : ProcessResult)
    (h : processShardKey true (some fields) hashedInit add_id = Except.ok r) :
    (r.add_id = true → "_id" ∈ fields.map Prod.fst) ∧
    ("_id" ∉ fields.map Prod.fst → r.add_id = false) := by
  cases hloop : shardKeyLoop fields 0 (initAcc hashedInit) with
  | error e =>
    rw [processShardKey_sharded_err fields hashedInit add_id e hloop] at h
    simp at h
  | ok acc =>
    rw [processShardKey_sharded_ok fields hashedInit add_id acc hloop] at h
    by_cases hcond : acc.hashed = true ∧ fields.length > 1
    · rw [if_pos hcond] at h
      simp at h
    · rw [if_neg hcond] at h
      simp only [Except.ok.injEq] at h
      have hid := shardKeyLoop_indexHas_id fields 0 _ acc hloop
      simp only [initAcc, Bool.false_or] at hid
      have hmem_iff : ("_id" ∈ fields.map Prod.fst) ↔
          fields.any (fun f => decide (f.1 = "_id")) = true := by
        rw [List.any_eq_true, List.mem_map]
        simp only [decide_eq_true_eq]
      rw [← h]
      constructor
      · intro haddid
        have haddid' : (if acc.indexHas_id then add_id else false) = true := haddid
        rw [hmem_iff, ← hid]
        rcases Bool.eq_false_or_eq_true acc.indexHas_id with hb | hb
        · exact hb
        · rw [hb] at haddid'
          simp at haddid'
      · intro hnomem
        have hany : fields.any (fun f => decide (f.1 = "_id")) = false := by
          cases hof : fields.any (fun f => decide (f.1 = "_id")) with
          | false => rfl
          | true => exact absurd (hmem_iff.2 hof) hnomem
        have hb : acc.indexHas_id = false := by rw [hid, hany]
        show (if acc.indexHas_id then add_id else false) = false
        rw [hb]
        simp

theorem C10_add_id_requires_id_field_witness :
    processShardKey true (some [("k", KeyVal.num 1)]) false true =
      Except.ok { hashed := false, shardKeyFields := ["k"], indexHas_id := false,
                  indexPos_id := Option.none, add_id := false } ∧
    ("_id" ∉ ([("k", KeyVal.num 1)] : List (String × KeyVal)).map Prod.fst →
      ({ hashed := false, shardKeyFields := ["k"], indexHas_id := false,
         indexPos_id := Option.none, add_id := false } : ProcessResult).add_id = false) :=
  ⟨rfl, (C10_add_id_requires_id_field [("k", KeyVal.num 1)] false true _ rfl).2⟩

end MLightning
